import Mathlib

set_option maxRecDepth 40000
set_option maxHeartbeats 4000000

/-!
Verification of the text-patching pipeline of `backend/src/fix_interfaces.py`.

The script scans C# entity files and, per file, applies an in-memory text
transformation: (1) import normalization (regroup `using` lines and append the
missing common import), (2) insertion of a soft-delete member template,
(3) insertion of an archivable member template.  Steps (2) and (3) locate the
insertion point with the regex
`(\s*)\n(\s*)}(\s*\n\s*/// <summary>|\s*\n\s*public enum|\s*\n\s*$)`
via `re.search` (leftmost match) and splice the template at
`match.start() + len(match.group(1))`.  The file is written back only when the
final text differs from the original.

Texts are modelled as `List Char` (Python `str` is a sequence of code points).
All definitions below follow the source; the regex is embedded as an explicit
backtracking matcher with Python's leftmost-then-greedy semantics.
-/

/-- Code points that Python's `str.isspace` and the `re` class `\s` accept
(the two sets coincide for `str` patterns). -/
def pyWhitespaceCodes : List Nat :=
  [9, 10, 11, 12, 13, 0x1c, 0x1d, 0x1e, 0x1f, 0x20, 0x85, 0xa0, 0x1680,
   0x2000, 0x2001, 0x2002, 0x2003, 0x2004, 0x2005, 0x2006, 0x2007, 0x2008,
   0x2009, 0x200a, 0x2028, 0x2029, 0x202f, 0x205f, 0x3000]

def isPySpace (c : Char) : Bool :=
  pyWhitespaceCodes.contains c.toNat

def nlChar : Char := Char.ofNat 10

def rbraceChar : Char := Char.ofNat 125

/-- Python substring test `needle in hay`. -/
def containsSub : List Char → List Char → Bool
  | hay, needle =>
    needle.isPrefixOf hay ||
      match hay with
      | [] => false
      | _ :: t => containsSub t needle

/-- Python `content.split('\n')`. -/
def splitLines : List Char → List (List Char)
  | [] => [[]]
  | c :: cs =>
    if c = nlChar then [] :: splitLines cs
    else
      match splitLines cs with
      | [] => [[c]]
      | l :: ls => (c :: l) :: ls

/-- Python `'\n'.join(lines)`. -/
def joinLines : List (List Char) → List Char
  | [] => []
  | [l] => l
  | l :: l' :: ls => l ++ nlChar :: joinLines (l' :: ls)

/-- Python `line.strip()`. -/
def pyStrip (l : List Char) : List Char :=
  ((l.dropWhile isPySpace).reverse.dropWhile isPySpace).reverse

def usingKeyword : List Char := String.toList "using "

def namespaceKeyword : List Char := String.toList "namespace"

/-- The partition test of the import normalizer:
`line.strip().startswith('using ') and not line.strip().startswith('namespace')`. -/
def isUsingLine (l : List Char) : Bool :=
  usingKeyword.isPrefixOf (pyStrip l) && !(namespaceKeyword.isPrefixOf (pyStrip l))

/-! ## The insertion-point regex

`(\s*)\n(\s*)}(\s*\n\s*/// <summary>|\s*\n\s*public enum|\s*\n\s*$)` searched
with `re.search`: starting positions are tried left to right; at a position the
first group is greedy, the second group is forced (it must reach the first
non-whitespace character, which must be the closing brace), and an alternative
`\s*\n\s*LIT` matches a run of whitespace containing a newline followed by the
literal; `\s*\n\s*$` matches exactly when the whole remaining text is
whitespace containing a newline. -/

def litSummary : List Char := String.toList "/// <summary>"

def litEnum : List Char := String.toList "public enum"

/-- `\s*\n\s*LIT` at the head of `l`: consume whitespace, at least one of it a
newline, then the literal. -/
def litAfterWsNl (lit : List Char) : List Char → Bool → Bool
  | l, seen =>
    (seen && lit.isPrefixOf l) ||
      match l with
      | [] => false
      | c :: t => isPySpace c && litAfterWsNl lit t (seen || c == nlChar)

/-- The third regex group (the alternation), matched at the head of `l`. -/
def altMatch (l : List Char) : Bool :=
  litAfterWsNl litSummary l false || litAfterWsNl litEnum l false ||
    (l.all isPySpace && l.contains nlChar)

/-- `(\s*)}(alt)` at the head of `l`: the greedy second group must reach the
first non-whitespace character, which must be the closing brace. -/
def braceAlt (l : List Char) : Bool :=
  match l.dropWhile isPySpace with
  | [] => false
  | c :: t => c == rbraceChar && altMatch t

/-- Does the pattern minus its first group match when the first group has
consumed `a` characters of `l`? -/
def condG1 (l : List Char) (a : Nat) : Bool :=
  ((l.drop a).head? == some nlChar) && braceAlt (l.drop (a + 1))

/-- Greedy backtracking for the first `(\s*)` group: try the longest
whitespace prefix first. -/
def tryG1 (l : List Char) : Nat → Option Nat
  | 0 => if condG1 l 0 then some 0 else none
  | a + 1 => if condG1 l (a + 1) then some (a + 1) else tryG1 l a

/-- Match attempt anchored at the head of `l`; returns the length of the first
group on success (the insertion offset relative to the anchor). -/
def matchAtSuffix (l : List Char) : Option Nat :=
  tryG1 l (l.takeWhile isPySpace).length

/-- Leftmost search: `re.search` tries every start position left to right. -/
def searchAux : List Char → Nat → Option Nat
  | l, i =>
    match matchAtSuffix l with
    | some a => some (i + a)
    | none =>
      match l with
      | [] => none
      | _ :: t => searchAux t (i + 1)

/-- `match.start() + len(match.group(1))` of the first regex match, if any. -/
def findInsertPos (c : List Char) : Option Nat :=
  searchAux c 0

/-! ## Fixed data of the script -/

def SOFT_DELETE_TEMPLATE : List Char :=
  String.toList "\n    // Implementação de ISoftDeletableEntity\n\n    /// <summary>\n    /// Indica se a entidade foi excluída logicamente\n    /// </summary>\n    public bool Excluido \x7b get; set; \x7d = false;\n\n    /// <summary>\n    /// Data da exclusão lógica\n    /// </summary>\n    public DateTime? DataExclusao \x7b get; set; \x7d\n\n    /// <summary>\n    /// Usuário responsável pela exclusão\n    /// </summary>\n    [StringLength(100)]\n    public string? UsuarioExclusao \x7b get; set; \x7d\n\n    /// <summary>\n    /// Motivo da exclusão para auditoria\n    /// </summary>\n    [StringLength(500)]\n    public string? MotivoExclusao \x7b get; set; \x7d\n\n    /// <summary>\n    /// Marca a entidade como excluída logicamente\n    /// </summary>\n    public void MarkAsDeleted(string? usuarioId = null, string? motivo = null)\n    \x7b\n        Excluido = true;\n        DataExclusao = DateTime.UtcNow;\n        UsuarioExclusao = usuarioId;\n        MotivoExclusao = motivo;\n    \x7d\n\n    /// <summary>\n    /// Restaura uma entidade excluída logicamente\n    /// </summary>\n    public void Restore()\n    \x7b\n        Excluido = false;\n        DataExclusao = null;\n        UsuarioExclusao = null;\n        MotivoExclusao = null;\n    \x7d"

def ARCHIVABLE_TEMPLATE : List Char :=
  String.toList "\n    // Implementação de IArchivableEntity\n\n    /// <summary>\n    /// Indica se a entidade foi arquivada\n    /// </summary>\n    public bool Arquivado \x7b get; set; \x7d = false;\n\n    /// <summary>\n    /// Data do arquivamento\n    /// </summary>\n    public DateTime? DataArquivamento \x7b get; set; \x7d\n\n    /// <summary>\n    /// Data da última movimentação/atividade da entidade\n    /// </summary>\n    public DateTime UltimaMovimentacao \x7b get; set; \x7d = DateTime.UtcNow;\n\n    /// <summary>\n    /// Atualiza a data da última movimentação\n    /// </summary>\n    public void AtualizarUltimaMovimentacao()\n    \x7b\n        UltimaMovimentacao = DateTime.UtcNow;\n    \x7d"

def sdMarker : List Char := String.toList "ISoftDeletableEntity"

def archMarker : List Char := String.toList "IArchivableEntity"

def importDecl : List Char := String.toList "using CoreApp.Domain.Entities.Common;"

def commonRef : List Char := String.toList "CoreApp.Domain.Entities.Common"

def sigExcluido : List Char := String.toList "public bool Excluido"

def sigUltima : List Char := String.toList "public DateTime UltimaMovimentacao"

/-! ## The per-file transformation (`process_entity_file`, in-memory part) -/

/-- Regroup the lines: `using`-declaration lines first, in order, then all
other lines, appending the missing common import unless some `using` line
already mentions `CoreApp.Domain.Entities.Common`. -/
def reconstructImports (c : List Char) : List Char :=
  let lines := splitLines c
  let usingLines := lines.filter (fun l => isUsingLine l)
  let otherLines := lines.filter (fun l => !isUsingLine l)
  let usingLines' :=
    if usingLines.any (fun l => containsSub l commonRef) then usingLines
    else usingLines ++ [importDecl]
  joinLines (usingLines' ++ otherLines)

def importStep (c : List Char) : List Char :=
  if (containsSub c sdMarker || containsSub c archMarker) &&
      !containsSub c importDecl
  then reconstructImports c else c

/-- `content[:p] + tmpl + content[p:]`. -/
def spliceAt (c : List Char) (p : Nat) (tmpl : List Char) : List Char :=
  c.take p ++ tmpl ++ c.drop p

def sdStep (c : List Char) : List Char :=
  if containsSub c sdMarker && !containsSub c sigExcluido then
    match findInsertPos c with
    | some p => spliceAt c p SOFT_DELETE_TEMPLATE
    | none => c
  else c

def archStep (c : List Char) : List Char :=
  if containsSub c archMarker && !containsSub c sigUltima then
    match findInsertPos c with
    | some p => spliceAt c p ARCHIVABLE_TEMPLATE
    | none => c
  else c

/-- The full in-memory transformation of one file's text. -/
def transformContent (c : List Char) : List Char :=
  archStep (sdStep (importStep c))

/-- `process_entity_file`: transform, then write back and report `True` only
when the text changed.  The first component is the written text (`none` means
the file is left untouched). -/
def process_entity_file (original : List Char) : Option (List Char) × Bool :=
  let content := transformContent original
  if content = original then (none, false) else (some content, true)

/-- The driver loop's per-file results (no state is carried between files). -/
def runFiles (files : List (List Char)) : List (Option (List Char) × Bool) :=
  files.map process_entity_file

/-- The driver loop's count of modified files. -/
def filesProcessed (files : List (List Char)) : Nat :=
  files.countP (fun t => (process_entity_file t).2)

def usingLinesOf (c : List Char) : List (List Char) :=
  (splitLines c).filter (fun l => isUsingLine l)

def otherLinesOf (c : List Char) : List (List Char) :=
  (splitLines c).filter (fun l => !isUsingLine l)

/-- The inner guard: some existing `using` line already mentions the common
namespace, so no import line is appended. -/
def importBlocked (c : List Char) : Bool :=
  (usingLinesOf c).any (fun l => containsSub l commonRef)

/-! ## Concrete file texts used as test inputs -/

/-- A class whose method `M` is followed by a documented method `N`: the inner
closing brace of `M` is followed by a doc comment, so it is the first match of
the insertion-point regex. -/
def exampleInner : List Char :=
  String.toList "using CoreApp.Domain.Entities.Common;\n\npublic class Foo : ISoftDeletableEntity\n\x7b\n    public void M()\n    \x7b\n    \x7d\n\n    /// <summary>\n    /// Doc for N.\n    /// </summary>\n    public void N()\n    \x7b\n    \x7d\n\x7d\n"

/-- A class declaring both marker interfaces and implementing neither. -/
def exampleBoth : List Char :=
  String.toList "using CoreApp.Domain.Entities.Common;\n\npublic class Bar : ISoftDeletableEntity, IArchivableEntity\n\x7b\n    public int Id \x7b get; set; \x7d\n\x7d\n"

/-- A file whose `using` line mentions the common namespace with a stray space
before the semicolon, so the exact import substring is absent but the inner
append guard still fires. -/
def exampleSpacedImport : List Char :=
  String.toList "using CoreApp.Domain.Entities.Common ;\nclass A : ISoftDeletableEntity"

/-- A marker reference with no closing brace anywhere, so the insertion-point
regex can never match. -/
def exampleNoBrace : List Char :=
  String.toList "class B : ISoftDeletableEntity"

/-- A minimal entity with a locatable closing-brace pattern. -/
def exampleEntity : List Char :=
  String.toList "class C : ISoftDeletableEntity\n\x7b\n\x7d\n"

/-- A file referencing no marker interface. -/
def examplePlain : List Char :=
  String.toList "public class X"

/-- A file with one existing import line and a soft-delete marker. -/
def exampleUsing : List Char :=
  String.toList "using System;\nclass A : ISoftDeletableEntity"

/-! ## Lemmas about the substring test -/

theorem containsSub_nil_needle (hay : List Char) : containsSub hay [] = true := by
  cases hay <;> simp [containsSub, List.isPrefixOf]

theorem containsSub_cons (c : Char) (t s : List Char) :
    containsSub (c :: t) s = (s.isPrefixOf (c :: t) || containsSub t s) := by
  simp [containsSub]

theorem containsSub_nil (s : List Char) :
    containsSub [] s = s.isPrefixOf [] := by
  simp [containsSub]

theorem isPrefixOf_append_left (s P Q : List Char) (h : s.isPrefixOf P = true) :
    s.isPrefixOf (P ++ Q) = true := by
  rw [List.isPrefixOf_iff_prefix] at h ⊢
  exact h.trans (List.prefix_append P Q)

theorem isPrefixOf_append_cons_notMem (c₀ : Char) (s : List Char) (h : c₀ ∉ s)
    (P Q : List Char) : s.isPrefixOf (P ++ c₀ :: Q) = s.isPrefixOf P := by
  induction P generalizing s with
  | nil =>
    cases s with
    | nil => simp [List.isPrefixOf]
    | cons a s' =>
      have hne : (a == c₀) = false := by
        simp only [beq_eq_false_iff_ne, ne_eq]
        intro hac
        exact h (hac ▸ List.mem_cons_self a s')
      simp [List.isPrefixOf, hne]
  | cons p P' ih =>
    cases s with
    | nil => simp [List.isPrefixOf]
    | cons a s' =>
      have h' : c₀ ∉ s' := fun hm => h (List.mem_cons_of_mem a hm)
      simp [List.isPrefixOf, ih s' h']

theorem containsSub_append_cons (c₀ : Char) (s : List Char) (h : c₀ ∉ s)
    (X Y : List Char) :
    containsSub (X ++ c₀ :: Y) s = (containsSub X s || containsSub Y s) := by
  induction X with
  | nil =>
    rw [List.nil_append, containsSub_cons, containsSub_nil,
      show s.isPrefixOf (c₀ :: Y) = s.isPrefixOf ([] : List Char) from
        isPrefixOf_append_cons_notMem c₀ s h [] Y]
  | cons x X' ih =>
    rw [List.cons_append, containsSub_cons, ih, containsSub_cons,
      show s.isPrefixOf (x :: (X' ++ c₀ :: Y)) = s.isPrefixOf (x :: X') from
        isPrefixOf_append_cons_notMem c₀ s h (x :: X') Y]
    cases s.isPrefixOf (x :: X') <;> simp

theorem containsSub_append_of_left (X Y s : List Char)
    (h : containsSub X s = true) : containsSub (X ++ Y) s = true := by
  induction X with
  | nil =>
    rw [containsSub_nil] at h
    rw [List.isPrefixOf_iff_prefix, List.prefix_nil] at h
    subst h
    exact containsSub_nil_needle Y
  | cons x X' ih =>
    rw [containsSub_cons] at h
    rw [List.cons_append, containsSub_cons]
    rcases Bool.or_eq_true_iff.mp h with h1 | h2
    · exact Bool.or_eq_true_iff.mpr (Or.inl (by
        have := isPrefixOf_append_left s (x :: X') Y h1
        simpa using this))
    · exact Bool.or_eq_true_iff.mpr (Or.inr (ih h2))

theorem containsSub_append_of_right (X Y s : List Char)
    (h : containsSub Y s = true) : containsSub (X ++ Y) s = true := by
  induction X with
  | nil => simpa using h
  | cons x X' ih =>
    rw [List.cons_append, containsSub_cons]
    exact Bool.or_eq_true_iff.mpr (Or.inr ih)

theorem containsSub_refl (s : List Char) : containsSub s s = true := by
  cases s with
  | nil => exact containsSub_nil_needle []
  | cons a t =>
    rw [containsSub_cons]
    exact Bool.or_eq_true_iff.mpr (Or.inl (by
      rw [List.isPrefixOf_iff_prefix]))

/-! ## Lemmas about line splitting and joining -/

theorem splitLines_ne_nil (c : List Char) : splitLines c ≠ [] := by
  cases c with
  | nil => simp [splitLines]
  | cons x cs =>
    by_cases hx : x = nlChar
    · simp [splitLines, hx]
    · simp only [splitLines, if_neg hx]
      cases splitLines cs <;> simp

theorem splitLines_no_nl (c : List Char) :
    ∀ l ∈ splitLines c, nlChar ∉ l := by
  induction c with
  | nil =>
    intro l hl
    simp [splitLines] at hl
    simp [hl]
  | cons x cs ih =>
    intro l hl
    by_cases hx : x = nlChar
    · simp only [splitLines, if_pos hx, List.mem_cons] at hl
      rcases hl with rfl | hl
      · simp
      · exact ih l hl
    · simp only [splitLines, if_neg hx] at hl
      rcases hh : splitLines cs with _ | ⟨h, t⟩
      · exact absurd hh (splitLines_ne_nil cs)
      · rw [hh] at hl
        rcases List.mem_cons.mp hl with rfl | hl2
        · intro hmem
          rcases List.mem_cons.mp hmem with rfl | hmem2
          · exact hx rfl
          · exact ih h (hh ▸ List.mem_cons_self h t) hmem2
        · exact ih l (hh ▸ List.mem_cons_of_mem h hl2)

theorem splitLines_of_no_nl (l : List Char) (h : nlChar ∉ l) :
    splitLines l = [l] := by
  induction l with
  | nil => simp [splitLines]
  | cons x cs ih =>
    have hx : x ≠ nlChar := fun hc => h (hc ▸ List.mem_cons_self x cs)
    have hcs : nlChar ∉ cs := fun hm => h (List.mem_cons_of_mem x hm)
    simp [splitLines, if_neg hx, ih hcs]

theorem splitLines_append_nl (X Y : List Char) :
    splitLines (X ++ nlChar :: Y) = splitLines X ++ splitLines Y := by
  induction X with
  | nil => simp [splitLines]
  | cons x X' ih =>
    rcases hh : splitLines X' with _ | ⟨h, t⟩
    · exact absurd hh (splitLines_ne_nil X')
    · by_cases hx : x = nlChar
      · simp [splitLines, if_pos hx, ih]
      · simp only [List.cons_append, splitLines, if_neg hx, hh]
        simp only [List.append_eq]
        rw [ih, hh]
        simp

theorem joinLines_splitLines (c : List Char) :
    joinLines (splitLines c) = c := by
  induction c with
  | nil => simp [splitLines, joinLines]
  | cons x cs ih =>
    by_cases hx : x = nlChar
    · subst hx
      rcases hh : splitLines cs with _ | ⟨h, t⟩
      · exact absurd hh (splitLines_ne_nil cs)
      · rw [hh] at ih
        simp [splitLines, joinLines, hh, ih]
    · rcases hh : splitLines cs with _ | ⟨h, t⟩
      · exact absurd hh (splitLines_ne_nil cs)
      · rw [hh] at ih
        simp only [splitLines, if_neg hx, hh]
        cases t with
        | nil =>
          simp only [joinLines] at ih ⊢
          rw [ih]
        | cons t₀ ts =>
          simp only [joinLines] at ih ⊢
          rw [List.cons_append, ih]

theorem splitLines_joinLines (ls : List (List Char)) (hne : ls ≠ [])
    (h : ∀ l ∈ ls, nlChar ∉ l) : splitLines (joinLines ls) = ls := by
  induction ls with
  | nil => exact absurd rfl hne
  | cons l ls' ih =>
    cases ls' with
    | nil =>
      simp only [joinLines]
      exact splitLines_of_no_nl l (h l (List.mem_cons_self l []))
    | cons l' ls'' =>
      have hl : nlChar ∉ l := h l (List.mem_cons_self l (l' :: ls''))
      have h' : ∀ x ∈ l' :: ls'', nlChar ∉ x := fun x hx => h x (List.mem_cons_of_mem l hx)
      simp only [joinLines, splitLines_append_nl, splitLines_of_no_nl l hl,
        ih (by simp) h', List.singleton_append]

theorem joinLines_append (X Y : List (List Char)) (hX : X ≠ []) (hY : Y ≠ []) :
    joinLines (X ++ Y) = joinLines X ++ nlChar :: joinLines Y := by
  induction X with
  | nil => exact absurd rfl hX
  | cons x X' ih =>
    cases X' with
    | nil =>
      cases Y with
      | nil => exact absurd rfl hY
      | cons y ys => simp [joinLines]
    | cons x' xs =>
      have h2 := ih (by simp)
      simp only [List.cons_append] at h2 ⊢
      simp only [joinLines]
      rw [h2]
      simp [List.append_assoc]

theorem containsSub_joinLines (ls : List (List Char)) (s : List Char)
    (hne : ls ≠ []) (hs : nlChar ∉ s) :
    containsSub (joinLines ls) s = ls.any (fun l => containsSub l s) := by
  induction ls with
  | nil => exact absurd rfl hne
  | cons l ls' ih =>
    cases ls' with
    | nil => simp [joinLines]
    | cons l' ls'' =>
      simp only [joinLines]
      rw [containsSub_append_cons nlChar s hs]
      rw [ih (by simp)]
      simp

/-! ## What a successful regex search guarantees -/

theorem tryG1_spec : ∀ (l : List Char) (a₀ a : Nat), tryG1 l a₀ = some a →
    condG1 l a = true := by
  intro l a₀
  induction a₀ with
  | zero =>
    intro a h
    by_cases hc : condG1 l 0 = true
    · simp only [tryG1, hc, if_true] at h
      obtain rfl : (0 : Nat) = a := Option.some.inj h
      exact hc
    · simp only [tryG1, hc, if_false, Bool.false_eq_true] at h
      simp at h
  | succ n ih =>
    intro a h
    by_cases hc : condG1 l (n + 1) = true
    · simp only [tryG1, hc, if_true] at h
      obtain rfl : n + 1 = a := Option.some.inj h
      exact hc
    · simp only [tryG1, hc, if_false, Bool.false_eq_true] at h
      exact ih a h

theorem searchAux_spec : ∀ (l : List Char) (i p : Nat), searchAux l i = some p →
    i ≤ p ∧ condG1 l (p - i) = true := by
  intro l
  induction l with
  | nil =>
    intro i p h
    simp only [searchAux] at h
    simp at h
  | cons x t ih =>
    intro i p h
    simp only [searchAux] at h
    cases hm : matchAtSuffix (x :: t) with
    | some a =>
      rw [hm] at h
      obtain rfl := Option.some.inj h
      refine ⟨Nat.le_add_right i a, ?_⟩
      rw [Nat.add_sub_cancel_left]
      exact tryG1_spec _ _ _ hm
    | none =>
      rw [hm] at h
      have h2 := ih (i + 1) p h
      refine ⟨by omega, ?_⟩
      have hk : p - i = (p - (i + 1)) + 1 := by omega
      rw [hk]
      have h3 := h2.2
      simp only [condG1] at h3 ⊢
      simpa [List.drop_succ_cons] using h3

theorem findInsertPos_spec (c : List Char) (p : Nat)
    (h : findInsertPos c = some p) :
    (c.drop p).head? = some nlChar ∧ braceAlt (c.drop (p + 1)) = true := by
  have h2 := searchAux_spec c 0 p h
  have h3 := h2.2
  rw [Nat.sub_zero] at h3
  simp only [condG1, Bool.and_eq_true, beq_iff_eq] at h3
  exact h3

theorem findInsertPos_drop (c : List Char) (p : Nat)
    (h : findInsertPos c = some p) :
    c.drop p = nlChar :: c.drop (p + 1) := by
  obtain ⟨h1, _⟩ := findInsertPos_spec c p h
  cases hd : c.drop p with
  | nil => rw [hd] at h1; simp at h1
  | cons y ys =>
    rw [hd] at h1
    simp only [List.head?_cons, Option.some.injEq] at h1
    subst h1
    have h3 : c.drop (p + 1) = ys := by
      have h4 := List.drop_drop 1 p c
      rw [hd] at h4
      simpa using h4.symm
    rw [h3]

theorem braceAlt_spec (l : List Char) (h : braceAlt l = true) :
    ∃ t, l.dropWhile isPySpace = rbraceChar :: t := by
  unfold braceAlt at h
  cases hd : l.dropWhile isPySpace with
  | nil => rw [hd] at h; simp at h
  | cons y ys =>
    rw [hd] at h
    simp only [Bool.and_eq_true, beq_iff_eq] at h
    exact ⟨ys, by rw [h.1]⟩

/-! ## What splicing a template at a newline does to substrings -/

theorem spliceAt_decomp (c T T' : List Char) (p : Nat)
    (hdrop : c.drop p = nlChar :: c.drop (p + 1)) (hT : T = nlChar :: T') :
    spliceAt c p T = c.take p ++ nlChar :: (T' ++ nlChar :: c.drop (p + 1)) := by
  simp only [spliceAt, hT, hdrop, List.append_assoc, List.cons_append]

theorem containsSub_spliceAt (c T T' s : List Char) (p : Nat)
    (hdrop : c.drop p = nlChar :: c.drop (p + 1)) (hT : T = nlChar :: T')
    (hs : nlChar ∉ s) :
    containsSub (spliceAt c p T) s =
      (containsSub c s || containsSub T' s) := by
  have hc : c = c.take p ++ nlChar :: c.drop (p + 1) := by
    conv_lhs => rw [← List.take_append_drop p c]
    rw [hdrop]
  rw [spliceAt_decomp c T T' p hdrop hT]
  conv_rhs => rw [hc]
  rw [containsSub_append_cons nlChar s hs, containsSub_append_cons nlChar s hs,
    containsSub_append_cons nlChar s hs]
  cases containsSub (c.take p) s <;> cases containsSub T' s <;>
    cases containsSub (c.drop (p + 1)) s <;> rfl

/-! ## Concrete facts about the fixed strings -/

theorem eq_cons_of_head? {l : List Char} {a : Char} (h : l.head? = some a) :
    l = a :: l.tail := by
  cases l <;> simp_all

theorem sd_template_cons :
    SOFT_DELETE_TEMPLATE = nlChar :: SOFT_DELETE_TEMPLATE.tail :=
  eq_cons_of_head? (by decide)

theorem arch_template_cons :
    ARCHIVABLE_TEMPLATE = nlChar :: ARCHIVABLE_TEMPLATE.tail :=
  eq_cons_of_head? (by decide)

theorem sdTail_has_sigExcluido :
    containsSub SOFT_DELETE_TEMPLATE.tail sigExcluido = true := by decide

theorem sdTail_no_sigUltima :
    containsSub SOFT_DELETE_TEMPLATE.tail sigUltima = false := by decide

theorem sdTail_no_archMarker :
    containsSub SOFT_DELETE_TEMPLATE.tail archMarker = false := by decide

theorem sdTail_no_importDecl :
    containsSub SOFT_DELETE_TEMPLATE.tail importDecl = false := by decide

theorem archTail_has_sigUltima :
    containsSub ARCHIVABLE_TEMPLATE.tail sigUltima = true := by decide

theorem archTail_no_sigExcluido :
    containsSub ARCHIVABLE_TEMPLATE.tail sigExcluido = false := by decide

theorem archTail_no_sdMarker :
    containsSub ARCHIVABLE_TEMPLATE.tail sdMarker = false := by decide

theorem archTail_no_importDecl :
    containsSub ARCHIVABLE_TEMPLATE.tail importDecl = false := by decide

theorem nl_not_mem_sdMarker : nlChar ∉ sdMarker := by decide

theorem nl_not_mem_archMarker : nlChar ∉ archMarker := by decide

theorem nl_not_mem_importDecl : nlChar ∉ importDecl := by decide

theorem nl_not_mem_commonRef : nlChar ∉ commonRef := by decide

theorem nl_not_mem_sigExcluido : nlChar ∉ sigExcluido := by decide

theorem nl_not_mem_sigUltima : nlChar ∉ sigUltima := by decide

theorem importDecl_has_commonRef : containsSub importDecl commonRef = true := by decide

theorem importDecl_no_sdMarker : containsSub importDecl sdMarker = false := by decide

theorem importDecl_no_archMarker : containsSub importDecl archMarker = false := by decide

theorem importDecl_no_sigExcluido : containsSub importDecl sigExcluido = false := by decide

theorem importDecl_no_sigUltima : containsSub importDecl sigUltima = false := by decide

theorem sdTail_lines_not_using :
    (splitLines SOFT_DELETE_TEMPLATE.tail).all (fun l => !isUsingLine l) = true := by decide

theorem archTail_lines_not_using :
    (splitLines ARCHIVABLE_TEMPLATE.tail).all (fun l => !isUsingLine l) = true := by decide

/-! ## Case analyses for the three steps -/

theorem sdStep_cases (c : List Char) :
    sdStep c = c ∨
    ∃ p, findInsertPos c = some p ∧
      containsSub c sdMarker = true ∧ containsSub c sigExcluido = false ∧
      sdStep c = spliceAt c p SOFT_DELETE_TEMPLATE := by
  unfold sdStep
  by_cases h : (containsSub c sdMarker && !containsSub c sigExcluido) = true
  · rw [if_pos h]
    rw [Bool.and_eq_true, Bool.not_eq_true'] at h
    cases hp : findInsertPos c with
    | none => exact Or.inl rfl
    | some p => exact Or.inr ⟨p, rfl, h.1, h.2, rfl⟩
  · rw [if_neg h]
    exact Or.inl rfl

theorem archStep_cases (c : List Char) :
    archStep c = c ∨
    ∃ p, findInsertPos c = some p ∧
      containsSub c archMarker = true ∧ containsSub c sigUltima = false ∧
      archStep c = spliceAt c p ARCHIVABLE_TEMPLATE := by
  unfold archStep
  by_cases h : (containsSub c archMarker && !containsSub c sigUltima) = true
  · rw [if_pos h]
    rw [Bool.and_eq_true, Bool.not_eq_true'] at h
    cases hp : findInsertPos c with
    | none => exact Or.inl rfl
    | some p => exact Or.inr ⟨p, rfl, h.1, h.2, rfl⟩
  · rw [if_neg h]
    exact Or.inl rfl

theorem containsSub_sdStep_of (c s : List Char) (hs : nlChar ∉ s)
    (h : containsSub c s = true) : containsSub (sdStep c) s = true := by
  rcases sdStep_cases c with hid | ⟨p, hp, _, _, hins⟩
  · rw [hid]; exact h
  · rw [hins,
      containsSub_spliceAt c _ _ s p (findInsertPos_drop c p hp) sd_template_cons hs, h]
    rfl

theorem containsSub_of_sdStep (c s : List Char) (hs : nlChar ∉ s)
    (h : containsSub (sdStep c) s = true) :
    containsSub c s = true ∨ containsSub SOFT_DELETE_TEMPLATE.tail s = true := by
  rcases sdStep_cases c with hid | ⟨p, hp, _, _, hins⟩
  · rw [hid] at h; exact Or.inl h
  · rw [hins,
      containsSub_spliceAt c _ _ s p (findInsertPos_drop c p hp) sd_template_cons hs] at h
    exact Bool.or_eq_true_iff.mp h

theorem containsSub_archStep_of (c s : List Char) (hs : nlChar ∉ s)
    (h : containsSub c s = true) : containsSub (archStep c) s = true := by
  rcases archStep_cases c with hid | ⟨p, hp, _, _, hins⟩
  · rw [hid]; exact h
  · rw [hins,
      containsSub_spliceAt c _ _ s p (findInsertPos_drop c p hp) arch_template_cons hs, h]
    rfl

theorem containsSub_of_archStep (c s : List Char) (hs : nlChar ∉ s)
    (h : containsSub (archStep c) s = true) :
    containsSub c s = true ∨ containsSub ARCHIVABLE_TEMPLATE.tail s = true := by
  rcases archStep_cases c with hid | ⟨p, hp, _, _, hins⟩
  · rw [hid] at h; exact Or.inl h
  · rw [hins,
      containsSub_spliceAt c _ _ s p (findInsertPos_drop c p hp) arch_template_cons hs] at h
    exact Bool.or_eq_true_iff.mp h

theorem sdStep_closes_gap (c : List Char) (p : Nat)
    (h1 : containsSub c sdMarker = true) (h2 : containsSub c sigExcluido = false)
    (hp : findInsertPos c = some p) :
    containsSub (sdStep c) sigExcluido = true := by
  have hcond : (containsSub c sdMarker && !containsSub c sigExcluido) = true := by
    rw [h1, h2]; rfl
  unfold sdStep
  rw [if_pos hcond, hp]
  rw [containsSub_spliceAt c _ _ _ p (findInsertPos_drop c p hp) sd_template_cons
    nl_not_mem_sigExcluido, sdTail_has_sigExcluido]
  simp

theorem archStep_closes_gap (c : List Char) (p : Nat)
    (h1 : containsSub c archMarker = true) (h2 : containsSub c sigUltima = false)
    (hp : findInsertPos c = some p) :
    containsSub (archStep c) sigUltima = true := by
  have hcond : (containsSub c archMarker && !containsSub c sigUltima) = true := by
    rw [h1, h2]; rfl
  unfold archStep
  rw [if_pos hcond, hp]
  rw [containsSub_spliceAt c _ _ _ p (findInsertPos_drop c p hp) arch_template_cons
    nl_not_mem_sigUltima, archTail_has_sigUltima]
  simp

theorem sdStep_id_of_no_marker (c : List Char)
    (h : containsSub c sdMarker = false) : sdStep c = c := by
  unfold sdStep
  rw [h]
  simp

theorem sdStep_id_of_sig (c : List Char)
    (h : containsSub c sigExcluido = true) : sdStep c = c := by
  unfold sdStep
  rw [h]
  simp

theorem sdStep_id_of_no_match (c : List Char)
    (h : findInsertPos c = none) : sdStep c = c := by
  unfold sdStep
  rw [h]
  split <;> rfl

theorem archStep_id_of_no_marker (c : List Char)
    (h : containsSub c archMarker = false) : archStep c = c := by
  unfold archStep
  rw [h]
  simp

theorem archStep_id_of_sig (c : List Char)
    (h : containsSub c sigUltima = true) : archStep c = c := by
  unfold archStep
  rw [h]
  simp

theorem archStep_id_of_no_match (c : List Char)
    (h : findInsertPos c = none) : archStep c = c := by
  unfold archStep
  rw [h]
  split <;> rfl

/-! ## The import normalizer -/

theorem reconstructImports_eq (c : List Char) :
    reconstructImports c =
      joinLines ((if importBlocked c then usingLinesOf c
        else usingLinesOf c ++ [importDecl]) ++ otherLinesOf c) := rfl

theorem usingOther_perm (c : List Char) :
    (usingLinesOf c ++ otherLinesOf c).Perm (splitLines c) :=
  List.filter_append_perm _ (splitLines c)

theorem usingOther_ne_nil (c : List Char) :
    usingLinesOf c ++ otherLinesOf c ≠ [] := by
  intro h
  have hp := usingOther_perm c
  rw [h] at hp
  exact absurd hp.symm.eq_nil (splitLines_ne_nil c)

theorem mem_using_or_other (c : List Char) (l : List Char) (hl : l ∈ splitLines c) :
    l ∈ usingLinesOf c ∨ l ∈ otherLinesOf c := by
  by_cases h : isUsingLine l = true
  · exact Or.inl (List.mem_filter.mpr ⟨hl, h⟩)
  · exact Or.inr (List.mem_filter.mpr ⟨hl, by simp [h]⟩)

theorem containsSub_eq_any_lines (c s : List Char) (hs : nlChar ∉ s) :
    containsSub c s = (splitLines c).any (fun l => containsSub l s) := by
  conv_lhs => rw [← joinLines_splitLines c]
  exact containsSub_joinLines _ _ (splitLines_ne_nil c) hs

theorem containsSub_reconstruct_of (c s : List Char) (hs : nlChar ∉ s)
    (h : containsSub c s = true) :
    containsSub (reconstructImports c) s = true := by
  rw [containsSub_eq_any_lines c s hs] at h
  obtain ⟨l, hl, hls⟩ := List.any_eq_true.mp h
  rw [reconstructImports_eq]
  by_cases hb : importBlocked c = true
  · rw [if_pos hb]
    rw [containsSub_joinLines _ _ (usingOther_ne_nil c) hs]
    refine List.any_eq_true.mpr ⟨l, ?_, hls⟩
    rcases mem_using_or_other c l hl with h1 | h1
    · exact List.mem_append_left _ h1
    · exact List.mem_append_right _ h1
  · rw [if_neg hb]
    have hne : (usingLinesOf c ++ [importDecl]) ++ otherLinesOf c ≠ [] := by simp
    rw [containsSub_joinLines _ _ hne hs]
    refine List.any_eq_true.mpr ⟨l, ?_, hls⟩
    rcases mem_using_or_other c l hl with h1 | h1
    · exact List.mem_append_left _ (List.mem_append_left _ h1)
    · exact List.mem_append_right _ h1

theorem containsSub_of_reconstruct (c s : List Char) (hs : nlChar ∉ s)
    (h : containsSub (reconstructImports c) s = true) :
    containsSub c s = true ∨ containsSub importDecl s = true := by
  rw [reconstructImports_eq] at h
  have hmem : ∃ l ∈ (if importBlocked c then usingLinesOf c
      else usingLinesOf c ++ [importDecl]) ++ otherLinesOf c, containsSub l s = true := by
    by_cases hb : importBlocked c = true
    · rw [if_pos hb] at h
      rw [if_pos hb]
      exact List.any_eq_true.mp ((containsSub_joinLines _ _ (usingOther_ne_nil c) hs) ▸ h)
    · rw [if_neg hb] at h
      have hne : (usingLinesOf c ++ [importDecl]) ++ otherLinesOf c ≠ [] := by simp
      rw [if_neg hb]
      exact List.any_eq_true.mp ((containsSub_joinLines _ _ hne hs) ▸ h)
  obtain ⟨l, hl, hls⟩ := hmem
  have hline : l ∈ splitLines c ∨ l = importDecl := by
    by_cases hb : importBlocked c = true
    · rw [if_pos hb] at hl
      rcases List.mem_append.mp hl with h1 | h1
      · exact Or.inl (List.mem_filter.mp h1).1
      · exact Or.inl (List.mem_filter.mp h1).1
    · rw [if_neg hb] at hl
      rcases List.mem_append.mp hl with h1 | h1
      · rcases List.mem_append.mp h1 with h2 | h2
        · exact Or.inl (List.mem_filter.mp h2).1
        · exact Or.inr (by simpa using h2)
      · exact Or.inl (List.mem_filter.mp h1).1
  rcases hline with h1 | rfl
  · refine Or.inl ?_
    rw [containsSub_eq_any_lines c s hs]
    exact List.any_eq_true.mpr ⟨l, h1, hls⟩
  · exact Or.inr hls

theorem reconstruct_adds_import (c : List Char) (hnb : importBlocked c = false) :
    containsSub (reconstructImports c) importDecl = true := by
  rw [reconstructImports_eq, if_neg (by simp [hnb])]
  have hne : (usingLinesOf c ++ [importDecl]) ++ otherLinesOf c ≠ [] := by simp
  rw [containsSub_joinLines _ _ hne nl_not_mem_importDecl]
  refine List.any_eq_true.mpr ⟨importDecl, ?_, containsSub_refl importDecl⟩
  exact List.mem_append_left _ (List.mem_append_right _ (by simp))

theorem importStep_runs (c : List Char)
    (hm : (containsSub c sdMarker || containsSub c archMarker) = true)
    (hi : containsSub c importDecl = false) :
    importStep c = reconstructImports c := by
  unfold importStep
  rw [hm, hi]
  simp

theorem importStep_id_of_import (c : List Char)
    (hi : containsSub c importDecl = true) : importStep c = c := by
  unfold importStep
  rw [hi]
  simp

theorem importStep_id_of_no_marker (c : List Char)
    (h1 : containsSub c sdMarker = false) (h2 : containsSub c archMarker = false) :
    importStep c = c := by
  unfold importStep
  rw [h1, h2]
  simp

theorem containsSub_importStep_of (c s : List Char) (hs : nlChar ∉ s)
    (h : containsSub c s = true) : containsSub (importStep c) s = true := by
  unfold importStep
  by_cases hcond : ((containsSub c sdMarker || containsSub c archMarker) &&
      !containsSub c importDecl) = true
  · rw [if_pos hcond]
    exact containsSub_reconstruct_of c s hs h
  · rw [if_neg hcond]
    exact h

theorem containsSub_of_importStep (c s : List Char) (hs : nlChar ∉ s)
    (h : containsSub (importStep c) s = true) :
    containsSub c s = true ∨ containsSub importDecl s = true := by
  unfold importStep at h
  by_cases hcond : ((containsSub c sdMarker || containsSub c archMarker) &&
      !containsSub c importDecl) = true
  · rw [if_pos hcond] at h
    exact containsSub_of_reconstruct c s hs h
  · rw [if_neg hcond] at h
    exact Or.inl h

/-! ## The claims -/

/-- Claim C2 (behaviour at the failing input): for `exampleInner`, whose method
`M` has a closing brace followed by a documentation comment, `re.search`
returns its leftmost match and the soft-delete template is spliced at offset
106 — inside the body of `M`, before the doc comment of `N` and before the
outer closing brace of the class — not immediately before the structurally
last closing delimiter of the type.  The code's own comment says it looks for
the LAST closing brace of the main class. -/
theorem c2_inserts_at_inner_brace :
    findInsertPos exampleInner = some 106 ∧
    containsSub (List.take 106 exampleInner) (String.toList "public void M()") = true ∧
    containsSub (List.take 106 exampleInner) litSummary = false ∧
    containsSub (List.drop 106 exampleInner) litSummary = true ∧
    containsSub (List.drop 106 exampleInner) (String.toList "public void N()") = true ∧
    transformContent exampleInner = spliceAt exampleInner 106 SOFT_DELETE_TEMPLATE :=
  ⟨by decide, by decide, by decide, by decide, by decide, eq_of_beq (by decide)⟩

/-- Claim C3 (behaviour at the failing input): for `exampleBoth`, which needs
both templates, the soft-delete template is inserted first (offset 131); the
second regex search then runs on the mutated text and its leftmost match is
the closing brace of `MarkAsDeleted` INSIDE the just-inserted soft-delete
block (offset 1048, with 131 < 1048 < 131 + 1168), so the archivable block is
spliced into the middle of the soft-delete block: the final output does not
contain the soft-delete block as contiguous text at all. -/
theorem c3_blocks_interleaved :
    containsSub exampleBoth sdMarker = true ∧
    containsSub exampleBoth archMarker = true ∧
    containsSub exampleBoth sigExcluido = false ∧
    containsSub exampleBoth sigUltima = false ∧
    transformContent exampleBoth =
      spliceAt (spliceAt exampleBoth 131 SOFT_DELETE_TEMPLATE) 1048 ARCHIVABLE_TEMPLATE ∧
    containsSub (transformContent exampleBoth) SOFT_DELETE_TEMPLATE = false ∧
    containsSub (transformContent exampleBoth) ARCHIVABLE_TEMPLATE = true :=
  ⟨by decide, by decide, by decide, by decide, eq_of_beq (by decide),
    by decide, by decide⟩

/-- Claim C4 counterexample: `exampleSpacedImport` references the soft-delete
marker and lacks the exact import line, yet the transformation adds no import
line at all (the inner guard sees `CoreApp.Domain.Entities.Common` inside an
existing `using` line and skips the append), so the output gains zero import
lines, not exactly one. -/
theorem c4_counterexample :
    containsSub exampleSpacedImport sdMarker = true ∧
    containsSub exampleSpacedImport importDecl = false ∧
    transformContent exampleSpacedImport = exampleSpacedImport ∧
    containsSub (transformContent exampleSpacedImport) importDecl = false :=
  ⟨by decide, by decide, eq_of_beq (by decide), by decide⟩

/-- Claim C4 (amended): if additionally no existing `using` line already
mentions `CoreApp.Domain.Entities.Common`, the output's lines are exactly the
`using` lines of the input, then the added import line, then all other lines —
one added import line, after the existing import lines and before the first
non-import line, and the import line occurs nowhere else. -/
theorem c4_amended (t : List Char)
    (hm : (containsSub t sdMarker || containsSub t archMarker) = true)
    (hi : containsSub t importDecl = false)
    (hb : importBlocked t = false) :
    splitLines (importStep t) = usingLinesOf t ++ importDecl :: otherLinesOf t ∧
    importDecl ∉ usingLinesOf t ∧ importDecl ∉ otherLinesOf t := by
  have hrun : importStep t = reconstructImports t := importStep_runs t hm hi
  have hnotline : importDecl ∉ splitLines t := by
    intro hmem
    have : containsSub t importDecl = true := by
      rw [containsSub_eq_any_lines t importDecl nl_not_mem_importDecl]
      exact List.any_eq_true.mpr ⟨importDecl, hmem, containsSub_refl importDecl⟩
    rw [this] at hi
    exact absurd hi (by simp)
  refine ⟨?_, fun hmem => hnotline (List.mem_filter.mp hmem).1,
    fun hmem => hnotline (List.mem_filter.mp hmem).1⟩
  rw [hrun, reconstructImports_eq, if_neg (by simp [hb])]
  have hnl : ∀ l ∈ (usingLinesOf t ++ [importDecl]) ++ otherLinesOf t, nlChar ∉ l := by
    intro l hl
    rcases List.mem_append.mp hl with h1 | h1
    · rcases List.mem_append.mp h1 with h2 | h2
      · exact splitLines_no_nl t l (List.mem_filter.mp h2).1
      · rw [List.mem_singleton.mp h2]
        exact nl_not_mem_importDecl
    · exact splitLines_no_nl t l (List.mem_filter.mp h1).1
  rw [splitLines_joinLines _ (by simp) hnl, List.append_assoc, List.singleton_append]

/-- Claim C4 amended, witness at `exampleUsing`. -/
theorem c4_amended_witness :
    splitLines (importStep exampleUsing) =
      usingLinesOf exampleUsing ++ importDecl :: otherLinesOf exampleUsing ∧
    importDecl ∉ usingLinesOf exampleUsing ∧ importDecl ∉ otherLinesOf exampleUsing :=
  c4_amended exampleUsing (by decide) (by decide) (by decide)

/-- Claim C5: at `exampleNoBrace` the marker is present and the import line
absent, so the import reconstruction runs, while the member-insertion regex
finds no insertion point; the result is a file with the import line added and
no member block inserted, written back and reported exactly like any other
modified file (no detection, no distinct report). -/
theorem c5_partial_transformation :
    containsSub exampleNoBrace sdMarker = true ∧
    containsSub exampleNoBrace importDecl = false ∧
    findInsertPos (importStep exampleNoBrace) = none ∧
    transformContent exampleNoBrace = importStep exampleNoBrace ∧
    containsSub (transformContent exampleNoBrace) importDecl = true ∧
    containsSub (transformContent exampleNoBrace) sigExcluido = false ∧
    process_entity_file exampleNoBrace =
      (some (transformContent exampleNoBrace), true) :=
  ⟨by decide, by decide, by decide, eq_of_beq (by decide), by decide, by decide,
    by decide⟩

/-- Claim C7: a text containing neither marker-interface name is returned
unchanged by the whole per-file transformation. -/
theorem c7_noop_when_contracts_absent (t : List Char)
    (h1 : containsSub t sdMarker = false) (h2 : containsSub t archMarker = false) :
    transformContent t = t := by
  unfold transformContent
  rw [importStep_id_of_no_marker t h1 h2, sdStep_id_of_no_marker t h1,
    archStep_id_of_no_marker t h2]

/-- Claim C7, witness at `examplePlain`. -/
theorem c7_noop_witness : transformContent examplePlain = examplePlain :=
  c7_noop_when_contracts_absent examplePlain (by decide) (by decide)

/-- Claim C8: the file is overwritten and reported as processed exactly when
the final in-memory text differs from the original; a byte-identical result
leaves the file untouched and returns `false`. -/
theorem c8_writer_frame (t : List Char) :
    (transformContent t = t → process_entity_file t = (none, false)) ∧
    (transformContent t ≠ t →
      process_entity_file t = (some (transformContent t), true)) := by
  constructor
  · intro h
    show (if transformContent t = t then ((none : Option (List Char)), false)
      else (some (transformContent t), true)) = (none, false)
    rw [if_pos h]
  · intro h
    show (if transformContent t = t then ((none : Option (List Char)), false)
      else (some (transformContent t), true)) = (some (transformContent t), true)
    rw [if_neg h]

/-- Claim C8, witness: an unchanged file is untouched and not counted; a
changed file is written and counted. -/
theorem c8_writer_frame_witness :
    process_entity_file examplePlain = (none, false) ∧
    process_entity_file exampleNoBrace =
      (some (transformContent exampleNoBrace), true) :=
  ⟨(c8_writer_frame examplePlain).1 (eq_of_beq (by decide)),
    (c8_writer_frame exampleNoBrace).2 (by
      intro h
      have := (beq_iff_eq (a := transformContent exampleNoBrace)
        (b := exampleNoBrace)).mpr h
      exact absurd this (by decide))⟩

/-- Claim C9: the per-file result is a deterministic function of the file's
own text; the driver maps `process_entity_file` over the files with no carried
state, each file's outcome depends only on its own text, and the
modified-files count is invariant under reordering of the files. -/
theorem c9_per_file_determinism :
    (∀ t₁ t₂ : List Char, t₁ = t₂ → transformContent t₁ = transformContent t₂) ∧
    (∀ (files : List (List Char)) (i : Nat) (h : i < files.length)
      (h2 : i < (runFiles files).length),
      (runFiles files).get ⟨i, h2⟩ = process_entity_file (files.get ⟨i, h⟩)) ∧
    (∀ files₁ files₂ : List (List Char), files₁.Perm files₂ →
      filesProcessed files₁ = filesProcessed files₂) := by
  refine ⟨fun t₁ t₂ h => by rw [h], fun files i h h2 => ?_, fun f₁ f₂ hp => ?_⟩
  · simp [runFiles, List.get_eq_getElem, List.getElem_map]
  · unfold filesProcessed
    exact hp.countP_eq _

/-- Claim C9, witness. -/
theorem c9_per_file_determinism_witness :
    transformContent examplePlain = transformContent examplePlain ∧
    (runFiles [examplePlain]).get ⟨0, by decide⟩ =
      process_entity_file ([examplePlain].get ⟨0, by decide⟩) ∧
    filesProcessed [examplePlain, exampleNoBrace] =
      filesProcessed [exampleNoBrace, examplePlain] :=
  ⟨c9_per_file_determinism.1 examplePlain examplePlain rfl,
    c9_per_file_determinism.2.1 [examplePlain] 0 (by decide) (by decide),
    c9_per_file_determinism.2.2 _ _ (List.Perm.swap _ _ _)⟩

/-- Claim C6: if a text contains the soft-delete marker, lacks the signature
substring, and the insertion-point regex matches the import-normalized text,
then after one run the output contains `public bool Excluido`. -/
theorem c6_gap_closure (t : List Char) (p : Nat)
    (h1 : containsSub t sdMarker = true)
    (h2 : containsSub t sigExcluido = false)
    (hp : findInsertPos (importStep t) = some p) :
    containsSub (transformContent t) sigExcluido = true := by
  have hm : containsSub (importStep t) sdMarker = true :=
    containsSub_importStep_of t sdMarker nl_not_mem_sdMarker h1
  have hsig : containsSub (importStep t) sigExcluido = false := by
    cases hval : containsSub (importStep t) sigExcluido with
    | false => rfl
    | true =>
      rcases containsSub_of_importStep t sigExcluido nl_not_mem_sigExcluido hval with
        hc | hc
      · rw [hc] at h2; exact absurd h2 (by simp)
      · rw [importDecl_no_sigExcluido] at hc; exact absurd hc (by simp)
  have hclosed := sdStep_closes_gap (importStep t) p hm hsig hp
  exact containsSub_archStep_of _ _ nl_not_mem_sigExcluido hclosed

/-- Claim C6, witness at `exampleEntity`. -/
theorem c6_gap_closure_witness :
    containsSub (transformContent exampleEntity) sigExcluido = true :=
  c6_gap_closure exampleEntity 70 (by decide) (by decide) (by decide)

/-- Claim C10: whenever the import-normalization branch runs, the output's
lines are the `using` lines of the input in order, then (unless the inner
guard suppresses it) the single added import line, then all other lines in
order; as a multiset the lines are exactly the input's lines plus the at most
one appended import line. -/
theorem c10_import_normalizer_line_preservation (t : List Char)
    (hm : (containsSub t sdMarker || containsSub t archMarker) = true)
    (hi : containsSub t importDecl = false) :
    splitLines (importStep t) =
      usingLinesOf t ++
        (if importBlocked t then [] else [importDecl]) ++ otherLinesOf t ∧
    (splitLines (importStep t)).Perm
      (splitLines t ++ (if importBlocked t then [] else [importDecl])) := by
  have hrun : importStep t = reconstructImports t := importStep_runs t hm hi
  have hlines : splitLines (importStep t) =
      (usingLinesOf t ++ (if importBlocked t then [] else [importDecl])) ++
        otherLinesOf t := by
    rw [hrun, reconstructImports_eq]
    by_cases hb : importBlocked t = true
    · rw [if_pos hb, if_pos hb, List.append_nil]
      have hnl : ∀ l ∈ usingLinesOf t ++ otherLinesOf t, nlChar ∉ l := by
        intro l hl
        rcases List.mem_append.mp hl with h1 | h1
        · exact splitLines_no_nl t l (List.mem_filter.mp h1).1
        · exact splitLines_no_nl t l (List.mem_filter.mp h1).1
      exact splitLines_joinLines _ (usingOther_ne_nil t) hnl
    · rw [if_neg hb, if_neg hb]
      have hnl : ∀ l ∈ (usingLinesOf t ++ [importDecl]) ++ otherLinesOf t,
          nlChar ∉ l := by
        intro l hl
        rcases List.mem_append.mp hl with h1 | h1
        · rcases List.mem_append.mp h1 with h2 | h2
          · exact splitLines_no_nl t l (List.mem_filter.mp h2).1
          · rw [List.mem_singleton.mp h2]; exact nl_not_mem_importDecl
        · exact splitLines_no_nl t l (List.mem_filter.mp h1).1
      exact splitLines_joinLines _ (by simp) hnl
  refine ⟨hlines, ?_⟩
  rw [hlines]
  refine List.Perm.trans ?_ ((usingOther_perm t).append_right _)
  rw [List.append_assoc, List.append_assoc]
  exact List.Perm.append_left _ List.perm_append_comm

/-- Claim C10, witness at `exampleUsing`. -/
theorem c10_import_normalizer_line_preservation_witness :
    splitLines (importStep exampleUsing) =
      usingLinesOf exampleUsing ++
        (if importBlocked exampleUsing then [] else [importDecl]) ++
        otherLinesOf exampleUsing ∧
    (splitLines (importStep exampleUsing)).Perm
      (splitLines exampleUsing ++
        (if importBlocked exampleUsing then [] else [importDecl])) :=
  c10_import_normalizer_line_preservation exampleUsing (by decide) (by decide)

/-! ## Idempotence support: where can the regex match in a file whose lines
are a block of `using` lines followed by other lines? -/

theorem pyStrip_prefix_dropWhile (l : List Char) :
    pyStrip l <+: l.dropWhile isPySpace := by
  have h1 : (l.dropWhile isPySpace).reverse.dropWhile isPySpace <:+
      (l.dropWhile isPySpace).reverse := List.dropWhile_suffix isPySpace
  have h2 := List.reverse_prefix.mpr h1
  rw [List.reverse_reverse] at h2
  exact h2

theorem isUsingLine_dropWhile (l : List Char) (h : isUsingLine l = true) :
    ∃ t', l.dropWhile isPySpace = 'u' :: t' := by
  unfold isUsingLine at h
  rw [Bool.and_eq_true] at h
  have h1 := h.1
  rw [List.isPrefixOf_iff_prefix] at h1
  have hstrip : ∃ s', pyStrip l = 'u' :: s' := by
    obtain ⟨w, hw⟩ := h1
    exact ⟨String.toList "sing " ++ w, by rw [← hw]; rfl⟩
  obtain ⟨s', hs'⟩ := hstrip
  obtain ⟨w, hw⟩ := pyStrip_prefix_dropWhile l
  exact ⟨s' ++ w, by rw [← hw, hs']; rfl⟩

theorem using_append_dropWhile (l z : List Char) (h : isUsingLine l = true) :
    ∃ t', (l ++ z).dropWhile isPySpace = 'u' :: t' := by
  obtain ⟨t', ht'⟩ := isUsingLine_dropWhile l h
  rw [List.dropWhile_append, ht']
  exact ⟨t' ++ z, by simp⟩

theorem joinLines_cons_decomp (l : List Char) (ls : List (List Char)) :
    ∃ z, joinLines (l :: ls) = l ++ z := by
  cases ls with
  | nil => exact ⟨[], by simp [joinLines]⟩
  | cons l' ls' => exact ⟨nlChar :: joinLines (l' :: ls'), rfl⟩

/-- If a text's lines are a block of `using` lines followed by other lines,
then any position `p` holding a newline whose continuation is whitespace and a
closing brace (the shape every regex match has) lies at or after the end of
the `using` block: the text splits there into the whole `using` block plus a
first chunk of other lines, and a remaining chunk of other lines. -/
theorem lines_take_drop_at_brace_nl :
    ∀ (U : List (List Char)) (c : List Char) (O : List (List Char)) (p : Nat),
      splitLines c = U ++ O → (∀ l ∈ U, isUsingLine l = true) →
      c.drop p = nlChar :: c.drop (p + 1) →
      (∃ tb, (c.drop (p + 1)).dropWhile isPySpace = rbraceChar :: tb) →
      ∃ O₁ O₂, O = O₁ ++ O₂ ∧ splitLines (c.take p) = U ++ O₁ ∧
        splitLines (c.drop (p + 1)) = O₂ := by
  intro U
  induction U with
  | nil =>
    intro c O p hlines _ hdrop _
    refine ⟨splitLines (c.take p), splitLines (c.drop (p + 1)), ?_, rfl, rfl⟩
    have hc : c = c.take p ++ nlChar :: c.drop (p + 1) := by
      conv_lhs => rw [← List.take_append_drop p c]
      rw [hdrop]
    have hsplit : splitLines c =
        splitLines (c.take p) ++ splitLines (c.drop (p + 1)) := by
      conv_lhs => rw [hc]
      exact splitLines_append_nl _ _
    rw [List.nil_append] at hlines
    rw [← hlines, hsplit]
  | cons u₀ U' ih =>
    intro c O p hlines hU hdrop hbrace
    have hu₀mem : u₀ ∈ splitLines c := by rw [hlines]; exact List.mem_cons_self _ _
    have hu₀nl : nlChar ∉ u₀ := splitLines_no_nl c u₀ hu₀mem
    have hjoin : c = joinLines ((u₀ :: U') ++ O) := by
      rw [← hlines, joinLines_splitLines]
    cases hW : U' ++ O with
    | nil =>
      exfalso
      have hc : c = u₀ := by
        rw [hjoin, List.cons_append, hW]
        rfl
      have hnlc : nlChar ∈ c := by
        have hm : nlChar ∈ c.drop p := by rw [hdrop]; exact List.mem_cons_self _ _
        exact List.drop_subset p c hm
      rw [hc] at hnlc
      exact hu₀nl hnlc
    | cons w ws =>
      have hc' : c = u₀ ++ nlChar :: joinLines (w :: ws) := by
        rw [hjoin, List.cons_append, hW]
        rfl
      have hsplit' : splitLines (joinLines (w :: ws)) = U' ++ O := by
        rw [← hW]
        refine splitLines_joinLines _ (by rw [hW]; simp) ?_
        intro l hl
        refine splitLines_no_nl c l ?_
        rw [hlines]
        exact List.mem_cons_of_mem u₀ hl
      rcases Nat.lt_trichotomy p u₀.length with hlt | heq | hgt
      · exfalso
        have hdropc : c.drop p = u₀.drop p ++ nlChar :: joinLines (w :: ws) := by
          rw [hc', List.drop_append_eq_append_drop,
            Nat.sub_eq_zero_of_le (le_of_lt hlt), List.drop_zero]
        cases hdu : u₀.drop p with
        | nil =>
          have hle := List.drop_eq_nil_iff.mp hdu
          omega
        | cons d ds =>
          have hd : d = nlChar := by
            rw [hdropc, hdu] at hdrop
            have hh := congrArg List.head? hdrop
            simpa using hh
          have hmem : nlChar ∈ u₀ := by
            rw [← hd]
            exact List.mem_of_mem_drop (n := p) (by rw [hdu]; exact List.mem_cons_self _ _)
          exact hu₀nl hmem
      · have htake : c.take p = u₀ := by
          rw [hc', heq, List.take_left]
        have hdropp : c.drop p = nlChar :: joinLines (w :: ws) := by
          rw [hc', heq, List.drop_left]
        have hdropp1 : c.drop (p + 1) = joinLines (w :: ws) := by
          have h2 : nlChar :: c.drop (p + 1) = nlChar :: joinLines (w :: ws) := by
            rw [← hdrop, hdropp]
          simpa using h2
        cases U' with
        | cons u₁ U'' =>
          exfalso
          obtain ⟨z, hz⟩ := joinLines_cons_decomp u₁ (U'' ++ O)
          have hcw : joinLines (w :: ws) = u₁ ++ z := by
            rw [← hW]
            exact hz
          obtain ⟨tb, htb⟩ := hbrace
          obtain ⟨t', ht'⟩ :=
            using_append_dropWhile u₁ z (hU u₁ (List.mem_cons_of_mem _ (List.mem_cons_self _ _)))
          rw [hdropp1, hcw, ht'] at htb
          have : rbraceChar = 'u' := by
            have hh := congrArg List.head? htb.symm
            simpa using hh
          exact absurd this (by decide)
        | nil =>
          rw [List.nil_append] at hW
          refine ⟨[], O, by simp, ?_, ?_⟩
          · rw [htake, splitLines_of_no_nl u₀ hu₀nl]
            simp
          · rw [hdropp1, hW]
            refine splitLines_joinLines _ (by simp) ?_
            intro l hl
            refine splitLines_no_nl c l ?_
            rw [hlines, hW]
            exact List.mem_cons_of_mem u₀ hl
      · have hdnil : u₀.drop p = [] := List.drop_eq_nil_of_le (by omega)
        have hdnil1 : u₀.drop (p + 1) = [] := List.drop_eq_nil_of_le (by omega)
        have hdc : c.drop p = (joinLines (w :: ws)).drop (p - u₀.length - 1) := by
          rw [hc', List.drop_append_eq_append_drop, hdnil, List.nil_append]
          obtain ⟨k, hk⟩ : ∃ k, p - u₀.length = k + 1 := ⟨p - u₀.length - 1, by omega⟩
          rw [hk, List.drop_succ_cons]
          congr 1
        have hdc1 : c.drop (p + 1) =
            (joinLines (w :: ws)).drop (p - u₀.length - 1 + 1) := by
          rw [hc', List.drop_append_eq_append_drop, hdnil1, List.nil_append]
          obtain ⟨k, hk⟩ : ∃ k, p + 1 - u₀.length = k + 1 := ⟨p - u₀.length, by omega⟩
          rw [hk, List.drop_succ_cons]
          congr 1
          omega
        have htakec : c.take p = u₀ ++ nlChar :: (joinLines (w :: ws)).take
            (p - u₀.length - 1) := by
          rw [hc', List.take_append_eq_append_take, List.take_of_length_le (by omega)]
          obtain ⟨k, hk⟩ : ∃ k, p - u₀.length = k + 1 := ⟨p - u₀.length - 1, by omega⟩
          rw [hk, List.take_succ_cons]
          congr 3
        have hdrop' : (joinLines (w :: ws)).drop (p - u₀.length - 1) =
            nlChar :: (joinLines (w :: ws)).drop (p - u₀.length - 1 + 1) := by
          rw [← hdc, ← hdc1]
          exact hdrop
        have hbrace' : ∃ tb, ((joinLines (w :: ws)).drop
            (p - u₀.length - 1 + 1)).dropWhile isPySpace = rbraceChar :: tb := by
          rw [← hdc1]
          exact hbrace
        have hU' : ∀ l ∈ U', isUsingLine l = true :=
          fun l hl => hU l (List.mem_cons_of_mem _ hl)
        obtain ⟨O₁, O₂, hO, hT, hD⟩ :=
          ih (joinLines (w :: ws)) O (p - u₀.length - 1) hsplit' hU' hdrop' hbrace'
        refine ⟨O₁, O₂, hO, ?_, ?_⟩
        · rw [htakec, splitLines_append_nl, splitLines_of_no_nl u₀ hu₀nl, hT]
          simp
        · rw [hdc1, hD]

theorem sdStep_preserves_using_block (c : List Char) (U O' : List (List Char))
    (hU : ∀ l ∈ U, isUsingLine l = true)
    (hO : ∀ l ∈ O', isUsingLine l = false)
    (hlines : splitLines c = U ++ O') :
    ∃ O'', (∀ l ∈ O'', isUsingLine l = false) ∧
      splitLines (sdStep c) = U ++ O'' := by
  rcases sdStep_cases c with hid | ⟨p, hp, _, _, hins⟩
  · rw [hid]; exact ⟨O', hO, hlines⟩
  · have hdrop := findInsertPos_drop c p hp
    have hbrace := (findInsertPos_spec c p hp).2
    obtain ⟨O₁, O₂, hOsplit, htake, hdropl⟩ :=
      lines_take_drop_at_brace_nl U c O' p hlines hU hdrop (braceAlt_spec _ hbrace)
    refine ⟨O₁ ++ splitLines SOFT_DELETE_TEMPLATE.tail ++ O₂, ?_, ?_⟩
    · intro l hl
      rcases List.mem_append.mp hl with h1 | h1
      · rcases List.mem_append.mp h1 with h2 | h2
        · exact hO l (hOsplit ▸ List.mem_append_left _ h2)
        · have hall := List.all_eq_true.mp sdTail_lines_not_using l h2
          simpa using hall
      · exact hO l (hOsplit ▸ List.mem_append_right _ h1)
    · rw [hins, spliceAt_decomp c _ _ p hdrop sd_template_cons,
        splitLines_append_nl, splitLines_append_nl, htake, hdropl]
      simp [List.append_assoc]

theorem archStep_preserves_using_block (c : List Char) (U O' : List (List Char))
    (hU : ∀ l ∈ U, isUsingLine l = true)
    (hO : ∀ l ∈ O', isUsingLine l = false)
    (hlines : splitLines c = U ++ O') :
    ∃ O'', (∀ l ∈ O'', isUsingLine l = false) ∧
      splitLines (archStep c) = U ++ O'' := by
  rcases archStep_cases c with hid | ⟨p, hp, _, _, hins⟩
  · rw [hid]; exact ⟨O', hO, hlines⟩
  · have hdrop := findInsertPos_drop c p hp
    have hbrace := (findInsertPos_spec c p hp).2
    obtain ⟨O₁, O₂, hOsplit, htake, hdropl⟩ :=
      lines_take_drop_at_brace_nl U c O' p hlines hU hdrop (braceAlt_spec _ hbrace)
    refine ⟨O₁ ++ splitLines ARCHIVABLE_TEMPLATE.tail ++ O₂, ?_, ?_⟩
    · intro l hl
      rcases List.mem_append.mp hl with h1 | h1
      · rcases List.mem_append.mp h1 with h2 | h2
        · exact hO l (hOsplit ▸ List.mem_append_left _ h2)
        · have hall := List.all_eq_true.mp archTail_lines_not_using l h2
          simpa using hall
      · exact hO l (hOsplit ▸ List.mem_append_right _ h1)
    · rw [hins, spliceAt_decomp c _ _ p hdrop arch_template_cons,
        splitLines_append_nl, splitLines_append_nl, htake, hdropl]
      simp [List.append_assoc]

theorem importStep_fixed_of_using_block (u : List Char) (U O' : List (List Char))
    (hU : ∀ l ∈ U, isUsingLine l = true)
    (hO : ∀ l ∈ O', isUsingLine l = false)
    (hlines : splitLines u = U ++ O')
    (hblocked : U.any (fun l => containsSub l commonRef) = true) :
    importStep u = u := by
  have husing : usingLinesOf u = U := by
    unfold usingLinesOf
    rw [hlines, List.filter_append, List.filter_eq_self.mpr hU,
      List.filter_eq_nil_iff.mpr (fun l hl => by rw [hO l hl]; simp), List.append_nil]
  have hother : otherLinesOf u = O' := by
    unfold otherLinesOf
    rw [hlines, List.filter_append,
      List.filter_eq_nil_iff.mpr (fun l hl => by rw [hU l hl]; simp),
      List.filter_eq_self.mpr (fun l hl => by rw [hO l hl]; rfl), List.nil_append]
  have hb : importBlocked u = true := by
    unfold importBlocked
    rw [husing]
    exact hblocked
  have hrec : reconstructImports u = u := by
    rw [reconstructImports_eq, husing, hother, if_pos hb, ← hlines,
      joinLines_splitLines]
  unfold importStep
  by_cases hcond : ((containsSub u sdMarker || containsSub u archMarker) &&
      !containsSub u importDecl) = true
  · rw [if_pos hcond]; exact hrec
  · rw [if_neg hcond]

theorem sdStep_fixed_on_output (t : List Char) :
    sdStep (transformContent t) = transformContent t := by
  show sdStep (archStep (sdStep (importStep t))) = archStep (sdStep (importStep t))
  cases hm1 : containsSub (importStep t) sdMarker with
  | false =>
    rw [sdStep_id_of_no_marker _ hm1]
    refine sdStep_id_of_no_marker _ ?_
    cases hval : containsSub (archStep (importStep t)) sdMarker with
    | false => rfl
    | true =>
      rcases containsSub_of_archStep _ sdMarker nl_not_mem_sdMarker hval with h | h
      · rw [hm1] at h; exact absurd h (by simp)
      · rw [archTail_no_sdMarker] at h; exact absurd h (by simp)
  | true =>
    cases hsig : containsSub (importStep t) sigExcluido with
    | true =>
      rw [sdStep_id_of_sig _ hsig]
      exact sdStep_id_of_sig _
        (containsSub_archStep_of _ sigExcluido nl_not_mem_sigExcluido hsig)
    | false =>
      cases hp : findInsertPos (importStep t) with
      | some p =>
        exact sdStep_id_of_sig _ (containsSub_archStep_of _ _ nl_not_mem_sigExcluido
          (sdStep_closes_gap _ p hm1 hsig hp))
      | none =>
        rw [sdStep_id_of_no_match _ hp, archStep_id_of_no_match _ hp]
        exact sdStep_id_of_no_match _ hp

theorem archStep_idem (c : List Char) : archStep (archStep c) = archStep c := by
  cases hm : containsSub c archMarker with
  | false =>
    rw [archStep_id_of_no_marker c hm, archStep_id_of_no_marker c hm]
  | true =>
    cases hsig : containsSub c sigUltima with
    | true =>
      rw [archStep_id_of_sig c hsig, archStep_id_of_sig c hsig]
    | false =>
      cases hp : findInsertPos c with
      | none => rw [archStep_id_of_no_match c hp, archStep_id_of_no_match c hp]
      | some p =>
        exact archStep_id_of_sig _ (archStep_closes_gap c p hm hsig hp)

theorem importStep_fixed_on_output (t : List Char) :
    importStep (transformContent t) = transformContent t := by
  by_cases himp : containsSub t importDecl = true
  · refine importStep_id_of_import _ ?_
    exact containsSub_archStep_of _ _ nl_not_mem_importDecl
      (containsSub_sdStep_of _ _ nl_not_mem_importDecl
        (containsSub_importStep_of t _ nl_not_mem_importDecl himp))
  · have himpf : containsSub t importDecl = false := by
      cases h : containsSub t importDecl
      · rfl
      · exact absurd h himp
    by_cases hmk : containsSub t sdMarker = false ∧ containsSub t archMarker = false
    · rw [c7_noop_when_contracts_absent t hmk.1 hmk.2]
      exact importStep_id_of_no_marker t hmk.1 hmk.2
    · have hmarker : (containsSub t sdMarker || containsSub t archMarker) = true := by
        rcases not_and_or.mp hmk with h | h
        · have hx : containsSub t sdMarker = true := by
            cases hy : containsSub t sdMarker
            · exact absurd hy h
            · rfl
          rw [hx, Bool.true_or]
        · have hx : containsSub t archMarker = true := by
            cases hy : containsSub t archMarker
            · exact absurd hy h
            · rfl
          rw [hx, Bool.or_true]
      have hrun : importStep t = reconstructImports t := importStep_runs t hmarker himpf
      by_cases hb : importBlocked t = true
      · have hUall : ∀ l ∈ usingLinesOf t, isUsingLine l = true :=
          fun l hl => (List.mem_filter.mp hl).2
        have hOall : ∀ l ∈ otherLinesOf t, isUsingLine l = false := fun l hl => by
          have h2 := (List.mem_filter.mp hl).2
          simpa using h2
        have hnl : ∀ l ∈ usingLinesOf t ++ otherLinesOf t, nlChar ∉ l := by
          intro l hl
          rcases List.mem_append.mp hl with h1 | h1
          · exact splitLines_no_nl t l (List.mem_filter.mp h1).1
          · exact splitLines_no_nl t l (List.mem_filter.mp h1).1
        have hlines1 : splitLines (importStep t) =
            usingLinesOf t ++ otherLinesOf t := by
          rw [hrun, reconstructImports_eq, if_pos hb]
          exact splitLines_joinLines _ (usingOther_ne_nil t) hnl
        obtain ⟨O2, hO2, hlines2⟩ :=
          sdStep_preserves_using_block (importStep t) _ _ hUall hOall hlines1
        obtain ⟨O3, hO3, hlines3⟩ :=
          archStep_preserves_using_block (sdStep (importStep t)) _ _ hUall hO2 hlines2
        exact importStep_fixed_of_using_block _ _ _ hUall hO3 hlines3 hb
      · have hbf : importBlocked t = false := by
          cases h : importBlocked t
          · rfl
          · exact absurd h hb
        refine importStep_id_of_import _ ?_
        exact containsSub_archStep_of _ _ nl_not_mem_importDecl
          (containsSub_sdStep_of _ _ nl_not_mem_importDecl
            (by rw [hrun]; exact reconstruct_adds_import t hbf))

/-- Claim C1: the per-file transformation is idempotent: a second run on the
output of a first run changes nothing, for EVERY input text.  The inserted
templates carry their own signature substrings, the added import line is
found on the second pass, and when the inner guard suppressed the import
append the regrouped lines are already a fixed point of the regrouping. -/
theorem c1_transform_idempotent (t : List Char) :
    transformContent (transformContent t) = transformContent t := by
  show archStep (sdStep (importStep (transformContent t))) = transformContent t
  rw [importStep_fixed_on_output t, sdStep_fixed_on_output t]
  show archStep (archStep (sdStep (importStep t))) = archStep (sdStep (importStep t))
  exact archStep_idem _
